import Mathlib

/-!
Verification of the ctemplate repository (src/src/ctemplate.ts and the Clib
code-generation helper class) against its natural-language specification.

The development contains:
* a pure JSON-like tree model and a pure embedding of `merge`
  (ctemplate.ts lines 27-41), adequate for merging disjoint parsed files;
* an explicit-heap embedding of `merge` and `explode` (lines 27-61), needed
  because `explode` mutates objects in place and its behaviour depends on
  object aliasing;
* an embedding of the template-block scanner of `processFiles`
  (lines 170-174), including the regex's marker alternatives, lazy body and
  newline trimming;
* an embedding of `Clib.format` (cLib.ts) as its three regex passes plus the
  final right-trim;
* a model of the per-file execution loop of `processFiles` (lines 143-182),
  in which the sandbox object - and hence the `config` reference - is
  created once, before the loop, and shared by every file's context.
-/

namespace CTemplate

/-- JSON-like values, the shape of parsed `.config.json` content. Dicts are
ordered association lists, mirroring JavaScript object key insertion order. -/
inductive Tree where
  | null : Tree
  | bool : Bool → Tree
  | int : Int → Tree
  | str : String → Tree
  | arr : List Tree → Tree
  | dict : List (String × Tree) → Tree
deriving Repr

abbrev Entries := List (String × Tree)

/-- Embeds `isDict` (ctemplate.ts line 18): an object that is not null and
not an array. Scalars (numbers, strings, booleans) are not dicts. -/
def Tree.isDict : Tree → Bool
  | .dict _ => true
  | _ => false

def Tree.isArr : Tree → Bool
  | .arr _ => true
  | _ => false

/-- First-match lookup in an association list, embedding `key in dest` /
`dest[key]` on a JavaScript object (keys are unique in real objects). -/
def findKey : Entries → String → Option Tree
  | [], _ => none
  | (k, v) :: rest, key => if k = key then some v else findKey rest key

/-- Embeds `dest[key] = v`: replaces the binding in place when the key
exists, otherwise appends it, as JavaScript object assignment does. -/
def setKey : Entries → String → Tree → Entries
  | [], key, v => [(key, v)]
  | (k, w) :: rest, key, v =>
    if k = key then (k, v) :: rest else (k, w) :: setKey rest key v

/-- The message of the error thrown at ctemplate.ts line 35:
`merging of key '<path>' failed` with the dotted path. -/
def mergeErrMsg (path : List String) : String :=
  "merging of key '" ++ String.intercalate "." path ++ "' failed"

/-- Pure embedding of `merge(dest, src, path)` (ctemplate.ts lines 27-41)
for trees: iterate the keys of `src` in order; a key absent from `dest` is
inserted; dict-dict pairs recurse with the extended path; array-array pairs
concatenate destination elements first; any other collision throws.
Mutation of `dest` becomes threading the updated entry list. -/
def merge (dest : Entries) (src : Entries) (path : List String) :
    Except String Entries :=
  match src with
  | [] => .ok dest
  | (key, sv) :: rest =>
    match findKey dest key with
    | none => merge (setKey dest key sv) rest path
    | some dv =>
      match dv, sv with
      | .dict dEs, .dict sEs =>
        match merge dEs sEs (path ++ [key]) with
        | .ok m => merge (setKey dest key (.dict m)) rest path
        | .error e => .error e
      | .arr dXs, .arr sXs =>
        merge (setKey dest key (.arr (dXs ++ sXs))) rest path
      | _, _ => .error (mergeErrMsg (path ++ [key]))
termination_by sizeOf src
decreasing_by all_goals (simp_all <;> omega)

/-- Real JavaScript objects never bind the same key twice at one level;
this is the corresponding well-formedness check for one entry list. -/
def nodupKeys : Entries → Bool
  | [] => true
  | (k, _) :: rest => (findKey rest k).isNone && nodupKeys rest

theorem findKey_setKey_self (d : Entries) (k : String) (v : Tree) :
    findKey (setKey d k v) k = some v := by
  induction d with
  | nil => simp [setKey, findKey]
  | cons hd rest ih =>
    obtain ⟨k2, w⟩ := hd
    by_cases h : k2 = k <;> simp [setKey, findKey, h, ih]

theorem findKey_setKey_ne (d : Entries) (k k2 : String) (v : Tree)
    (h : k ≠ k2) : findKey (setKey d k v) k2 = findKey d k2 := by
  induction d with
  | nil => simp [setKey, findKey, h]
  | cons hd rest ih =>
    obtain ⟨k3, w⟩ := hd
    by_cases h3 : k3 = k
    · subst h3; simp [setKey, findKey, h]
    · simp [setKey, findKey, h3, ih]

theorem merge_cons_new (dest : Entries) (key : String) (sv : Tree)
    (rest : Entries) (path : List String) (h : findKey dest key = none) :
    merge dest ((key, sv) :: rest) path =
      merge (setKey dest key sv) rest path := by
  rw [merge, h]

theorem merge_cons_dictdict (dest : Entries) (key : String)
    (dEs sEs rest : Entries) (path : List String)
    (h : findKey dest key = some (.dict dEs)) :
    merge dest ((key, .dict sEs) :: rest) path =
      match merge dEs sEs (path ++ [key]) with
      | .ok m => merge (setKey dest key (.dict m)) rest path
      | .error e => .error e := by
  rw [merge, h]

theorem merge_cons_arrarr (dest : Entries) (key : String)
    (dXs sXs : List Tree) (rest : Entries) (path : List String)
    (h : findKey dest key = some (.arr dXs)) :
    merge dest ((key, .arr sXs) :: rest) path =
      merge (setKey dest key (.arr (dXs ++ sXs))) rest path := by
  rw [merge, h]

/-- Line 35 of ctemplate.ts: a key present in both sides whose values are
not both dicts and not both arrays makes the whole merge throw. -/
theorem merge_cons_conflict (dest : Entries) (key : String) (dv sv : Tree)
    (rest : Entries) (path : List String) (h : findKey dest key = some dv)
    (hnd : (dv.isDict && sv.isDict) = false)
    (hna : (dv.isArr && sv.isArr) = false) :
    merge dest ((key, sv) :: rest) path =
      .error (mergeErrMsg (path ++ [key])) := by
  rw [merge, h]
  cases dv <;> cases sv <;> simp_all [Tree.isDict, Tree.isArr]

/-- A successful merge step over a key present in both sides can only have
seen dict-dict or array-array values. -/
theorem merge_cons_ok_shapes (dest : Entries) (key : String) (dv sv : Tree)
    (rest : Entries) (path : List String) (out : Entries)
    (h : findKey dest key = some dv)
    (hok : merge dest ((key, sv) :: rest) path = .ok out) :
    (∃ dEs sEs, dv = .dict dEs ∧ sv = .dict sEs) ∨
    (∃ dXs sXs, dv = .arr dXs ∧ sv = .arr sXs) := by
  cases dv <;> cases sv <;>
    first
      | exact Or.inl ⟨_, _, rfl, rfl⟩
      | exact Or.inr ⟨_, _, rfl, rfl⟩
      | (rw [merge_cons_conflict dest key _ _ rest path h (by rfl) (by rfl)]
          at hok
         cases hok)

/-- Transfer of the inductive invariants of `merge_spec` over one processed
source entry `(key, sv)` that updated the destination to `setKey dest key w`. -/
theorem merge_step_lift (dest out rest : Entries) (path : List String)
    (key : String) (sv w : Tree)
    (hkeyrest : findKey rest key = none)
    (p1 : ∀ k, findKey rest k = none →
      findKey out k = findKey (setKey dest key w) k)
    (p2 : ∀ k, (findKey (setKey dest key w) k).isSome → (findKey out k).isSome)
    (p3 : ∀ k, (findKey rest k).isSome → (findKey out k).isSome)
    (p4 : ∀ k xs ys, findKey (setKey dest key w) k = some (.arr xs) →
      findKey rest k = some (.arr ys) → findKey out k = some (.arr (xs ++ ys)))
    (hq4 : ∀ xs ys, findKey dest key = some (.arr xs) → sv = .arr ys →
      w = .arr (xs ++ ys)) :
    (∀ k, findKey ((key, sv) :: rest) k = none →
      findKey out k = findKey dest k) ∧
    (∀ k, (findKey dest k).isSome → (findKey out k).isSome) ∧
    (∀ k, (findKey ((key, sv) :: rest) k).isSome → (findKey out k).isSome) ∧
    (∀ k xs ys, findKey dest k = some (.arr xs) →
      findKey ((key, sv) :: rest) k = some (.arr ys) →
      findKey out k = some (.arr (xs ++ ys))) := by
  refine ⟨?_, ?_, ?_, ?_⟩
  · intro k hk
    simp only [findKey] at hk
    by_cases he : key = k
    · simp [he] at hk
    · rw [p1 k (by simpa [he] using hk), findKey_setKey_ne _ _ _ _ he]
  · intro k hk
    by_cases he : key = k
    · subst he; exact p2 key (by simp [findKey_setKey_self])
    · exact p2 k (by rwa [findKey_setKey_ne _ _ _ _ he])
  · intro k hk
    simp only [findKey] at hk
    by_cases he : key = k
    · subst he; exact p2 key (by simp [findKey_setKey_self])
    · simp only [he, if_false] at hk
      exact p3 k hk
  · intro k xs ys hxs hys
    simp only [findKey] at hys
    by_cases he : key = k
    · subst he
      rw [if_pos rfl] at hys
      rw [p1 key hkeyrest, findKey_setKey_self,
        hq4 xs ys hxs (Option.some.inj hys)]
    · simp only [he, if_false] at hys
      exact p4 k xs ys (by rwa [findKey_setKey_ne _ _ _ _ he]) hys

/-- Main inductive specification of the pure `merge`: assuming the source
object has no duplicate keys at top level, a successful merge (i) leaves
keys outside the source untouched, (ii) keeps every destination key,
(iii) contains every source key, and (iv) concatenates shared array keys
destination-first. -/
theorem merge_spec (src : Entries) : ∀ (dest : Entries) (path : List String)
    (out : Entries), nodupKeys src = true → merge dest src path = .ok out →
    (∀ k, findKey src k = none → findKey out k = findKey dest k) ∧
    (∀ k, (findKey dest k).isSome → (findKey out k).isSome) ∧
    (∀ k, (findKey src k).isSome → (findKey out k).isSome) ∧
    (∀ k xs ys, findKey dest k = some (.arr xs) →
      findKey src k = some (.arr ys) →
      findKey out k = some (.arr (xs ++ ys))) := by
  induction src with
  | nil =>
    intro dest path out _ hok
    simp only [merge] at hok
    cases hok
    exact ⟨fun k _ => rfl, fun k h => h, by simp [findKey], by simp [findKey]⟩
  | cons hd rest ih =>
    obtain ⟨key, sv⟩ := hd
    intro dest path out hnd hok
    simp only [nodupKeys, Bool.and_eq_true, Option.isNone_iff_eq_none] at hnd
    obtain ⟨hkeyrest, hndrest⟩ := hnd
    rcases hdest : findKey dest key with _ | dv
    · rw [merge_cons_new dest key sv rest path hdest] at hok
      obtain ⟨p1, p2, p3, p4⟩ := ih (setKey dest key sv) path out hndrest hok
      exact merge_step_lift dest out rest path key sv sv hkeyrest p1 p2 p3 p4
        (fun xs ys hxs _ => by rw [hdest] at hxs; cases hxs)
    · rcases merge_cons_ok_shapes dest key dv sv rest path out hdest hok with
        ⟨dEs, sEs, rfl, rfl⟩ | ⟨dXs, sXs, rfl, rfl⟩
      · rw [merge_cons_dictdict dest key dEs sEs rest path hdest] at hok
        rcases hsub : merge dEs sEs (path ++ [key]) with e | m <;>
          rw [hsub] at hok
        · cases hok
        · obtain ⟨p1, p2, p3, p4⟩ :=
            ih (setKey dest key (.dict m)) path out hndrest hok
          exact merge_step_lift dest out rest path key (.dict sEs) (.dict m)
            hkeyrest p1 p2 p3 p4
            (fun xs ys hxs _ => by rw [hdest] at hxs; cases hxs)
      · rw [merge_cons_arrarr dest key dXs sXs rest path hdest] at hok
        obtain ⟨p1, p2, p3, p4⟩ :=
          ih (setKey dest key (.arr (dXs ++ sXs))) path out hndrest hok
        refine merge_step_lift dest out rest path key (.arr sXs)
          (.arr (dXs ++ sXs)) hkeyrest p1 p2 p3 p4 ?_
        intro xs ys hxs hsv
        rw [hdest] at hxs
        cases hxs
        cases hsv
        rfl

/-- C2. For dicts A and B whose merge raises no conflict (B, like every
real JavaScript object, has no duplicate top-level keys), the merged
result contains every key of A and of B, and every key bound to an array
in both sides maps to A's elements followed by B's elements, each side's
internal order preserved. -/
theorem c2_merge_keeps_keys_and_appends_arrays (A B C : Entries)
    (path : List String) (hB : nodupKeys B = true)
    (hok : merge A B path = .ok C) :
    (∀ k, (findKey A k).isSome → (findKey C k).isSome) ∧
    (∀ k, (findKey B k).isSome → (findKey C k).isSome) ∧
    (∀ k xs ys, findKey A k = some (.arr xs) → findKey B k = some (.arr ys) →
      findKey C k = some (.arr (xs ++ ys))) := by
  obtain ⟨_, p2, p3, p4⟩ := merge_spec B A path C hB hok
  exact ⟨p2, p3, p4⟩

/-- Concrete input for the C2 witness: two dicts sharing the array key s. -/
def c2A : Entries := [("x", .int 1), ("s", .arr [.int 1, .int 2])]

def c2B : Entries := [("y", .int 2), ("s", .arr [.int 3])]

def c2C : Entries := [("x", .int 1), ("s", .arr [.int 1, .int 2, .int 3]), ("y", .int 2)]

/-- Witness for C2 at a concrete conflict-free pair of dicts. -/
theorem c2_witness :
    (∀ k, (findKey c2A k).isSome → (findKey c2C k).isSome) ∧
    (∀ k, (findKey c2B k).isSome → (findKey c2C k).isSome) ∧
    (∀ k xs ys, findKey c2A k = some (.arr xs) → findKey c2B k = some (.arr ys) →
      findKey c2C k = some (.arr (xs ++ ys))) :=
  c2_merge_keeps_keys_and_appends_arrays c2A c2B c2C [] (by rfl)
    (by simp [c2A, c2B, c2C, merge, findKey, setKey])


/-- A scalar in the sense of the spec: neither dict-like nor array-like. -/
def Tree.isScalar (t : Tree) : Bool := !t.isDict && !t.isArr

mutual

/-- Deep well-formedness of a parsed JavaScript value: every dict reachable
in it has pairwise-distinct keys, as real objects do. -/
def wfTree : Tree → Bool
  | .dict es => nodupKeys es && wfEntries es
  | .arr xs => wfList xs
  | _ => true

def wfEntries : Entries → Bool
  | [] => true
  | (_, v) :: rest => wfTree v && wfEntries rest

def wfList : List Tree → Bool
  | [] => true
  | v :: rest => wfTree v && wfList rest

end

/-- Shorthand: a top-level dict whose whole tree is well-formed. -/
def wfDict (es : Entries) : Bool := nodupKeys es && wfEntries es

/-- The condition under which the merge of lines 27-41 throws at relative
dotted path `ks`: the path's proper prefix passes through dicts on both
sides, and its last key is bound on both sides to values that are neither
both dicts nor both arrays. -/
inductive MergeConflictAt : Entries → Entries → List String → Prop where
  | here {A B : Entries} {k : String} {v w : Tree} :
      findKey A k = some v → findKey B k = some w →
      (v.isDict && w.isDict) = false → (v.isArr && w.isArr) = false →
      MergeConflictAt A B [k]
  | there {A B A2 B2 : Entries} {k : String} {ks : List String} :
      findKey A k = some (.dict A2) → findKey B k = some (.dict B2) →
      MergeConflictAt A2 B2 ks → MergeConflictAt A B (k :: ks)

/-- The situation described by claim C3: at relative dotted path `ks`, one
side binds the key to a dict and the other to a scalar (either direction),
the prefix of the path passing through dicts on both sides. -/
inductive DictScalarConflictAt : Entries → Entries → List String → Prop where
  | here {A B : Entries} {k : String} {v w : Tree} :
      findKey A k = some v → findKey B k = some w →
      ((v.isDict && w.isScalar) || (v.isScalar && w.isDict)) = true →
      DictScalarConflictAt A B [k]
  | there {A B A2 B2 : Entries} {k : String} {ks : List String} :
      findKey A k = some (.dict A2) → findKey B k = some (.dict B2) →
      DictScalarConflictAt A2 B2 ks → DictScalarConflictAt A B (k :: ks)

/-- What makes the merge loop fail while treating one shared key: dict-dict
values whose recursive merge fails, or values of incompatible shapes. -/
def pairFails (v w : Tree) (p : List String) : Prop :=
  match v, w with
  | .dict dEs, .dict sEs => ∃ e, merge dEs sEs p = .error e
  | .arr _, .arr _ => False
  | _, _ => True

theorem isDict_iff (t : Tree) : t.isDict = true ↔ ∃ es, t = .dict es := by
  cases t <;> simp [Tree.isDict]

theorem isArr_iff (t : Tree) : t.isArr = true ↔ ∃ xs, t = .arr xs := by
  cases t <;> simp [Tree.isArr]

theorem bool_false_of_not_true {b : Bool} (h : ¬ b = true) : b = false := by
  cases b <;> simp_all

/-- If some key of the source is bound on both sides to a failing pair, the
whole merge call returns an error (the loop either reaches that key and
fails there, or fails even earlier). -/
theorem merge_iter_error (src : Entries) : ∀ (dest : Entries)
    (path : List String) (k : String) (v w : Tree),
    nodupKeys src = true → findKey src k = some w → findKey dest k = some v →
    pairFails v w (path ++ [k]) → ∃ e, merge dest src path = .error e := by
  induction src with
  | nil => intro dest path k v w _ hsrc _ _; cases hsrc
  | cons hd rest ih =>
    obtain ⟨key, sv⟩ := hd
    intro dest path k v w hnd hsrc hdest hfail
    simp only [nodupKeys, Bool.and_eq_true, Option.isNone_iff_eq_none] at hnd
    obtain ⟨hkeyrest, hndrest⟩ := hnd
    simp only [findKey] at hsrc
    by_cases he : key = k
    · subst he
      rw [if_pos rfl] at hsrc
      cases hsrc
      by_cases h1 : (v.isDict && Tree.isDict sv) = true
      · -- dict-dict: the recursive merge fails and the error propagates
        simp only [Bool.and_eq_true] at h1
        obtain ⟨dEs, rfl⟩ := (isDict_iff v).mp h1.1
        obtain ⟨sEs, rfl⟩ := (isDict_iff sv).mp h1.2
        simp only [pairFails] at hfail
        obtain ⟨e, hsub⟩ := hfail
        rw [merge_cons_dictdict dest key _ _ rest path hdest, hsub]
        exact ⟨e, rfl⟩
      · by_cases h2 : (v.isArr && Tree.isArr sv) = true
        · -- array-array pairs never fail, contradicting `pairFails`
          simp only [Bool.and_eq_true] at h2
          obtain ⟨dXs, rfl⟩ := (isArr_iff v).mp h2.1
          obtain ⟨sXs, rfl⟩ := (isArr_iff sv).mp h2.2
          simp [pairFails] at hfail
        · exact ⟨_, merge_cons_conflict dest key _ _ rest path hdest
            (bool_false_of_not_true h1) (bool_false_of_not_true h2)⟩
    · rw [if_neg he] at hsrc
      rcases hdk : findKey dest key with _ | dv
      · rw [merge_cons_new dest key sv rest path hdk]
        exact ih (setKey dest key sv) path k v w hndrest hsrc
          (by rwa [findKey_setKey_ne _ _ _ _ (fun h => he h)]) hfail
      · by_cases h1 : (dv.isDict && Tree.isDict sv) = true
        · -- dict-dict head: either the sub-merge fails or the loop goes on
          simp only [Bool.and_eq_true] at h1
          obtain ⟨dEs, rfl⟩ := (isDict_iff dv).mp h1.1
          obtain ⟨sEs, rfl⟩ := (isDict_iff sv).mp h1.2
          rw [merge_cons_dictdict dest key _ _ rest path hdk]
          rcases hsub : merge dEs sEs (path ++ [key]) with e | m
          · exact ⟨e, rfl⟩
          · exact ih (setKey dest key (.dict m)) path k v w hndrest hsrc
              (by rwa [findKey_setKey_ne _ _ _ _ (fun h => he h)]) hfail
        · by_cases h2 : (dv.isArr && Tree.isArr sv) = true
          · -- array-array head: the loop continues past this key
            simp only [Bool.and_eq_true] at h2
            obtain ⟨dXs, rfl⟩ := (isArr_iff dv).mp h2.1
            obtain ⟨sXs, rfl⟩ := (isArr_iff sv).mp h2.2
            rw [merge_cons_arrarr dest key _ _ rest path hdk]
            exact ih (setKey dest key (.arr (dXs ++ sXs))) path k v w hndrest
              hsrc (by rwa [findKey_setKey_ne _ _ _ _ (fun h => he h)]) hfail
          · exact ⟨_, merge_cons_conflict dest key _ _ rest path hdk
              (bool_false_of_not_true h1) (bool_false_of_not_true h2)⟩

theorem wfEntries_findKey (es : Entries) (k : String) (v : Tree)
    (h : wfEntries es = true) (hf : findKey es k = some v) :
    wfTree v = true := by
  induction es with
  | nil => cases hf
  | cons hd rest ih =>
    obtain ⟨k2, w⟩ := hd
    simp only [wfEntries, Bool.and_eq_true] at h
    simp only [findKey] at hf
    by_cases he : k2 = k
    · rw [if_pos he] at hf; cases hf; exact h.1
    · rw [if_neg he] at hf; exact ih h.2 hf

/-- A dict-versus-scalar collision at any depth makes `merge` throw. -/
theorem merge_error_of_dict_scalar {A B : Entries} {ks : List String}
    (hc : DictScalarConflictAt A B ks) : ∀ (path : List String),
    wfDict B = true → ∃ e, merge A B path = .error e := by
  induction hc with
  | @here A2 B2 k v w hA hB2 hshape =>
    intro path hB
    refine merge_iter_error B2 A2 path k v w ?_ hB2 hA ?_
    · exact ((Bool.and_eq_true _ _).mp hB).1
    · cases v <;> cases w <;>
        simp_all [pairFails, Tree.isDict, Tree.isArr, Tree.isScalar]
  | @there A2 B2 A3 B3 k ks2 hA hB2 _ ih =>
    intro path hB
    have hwf3 : wfDict B3 = true := by
      have := wfEntries_findKey B2 k (.dict B3)
        ((Bool.and_eq_true _ _).mp hB).2 hB2
      simpa [wfTree, wfDict] using this
    obtain ⟨e, he⟩ := ih (path ++ [k]) hwf3
    exact merge_iter_error B2 A2 path k (.dict A3) (.dict B3)
      ((Bool.and_eq_true _ _).mp hB).1 hB2 hA ⟨e, he⟩


theorem merge_nil (dest : Entries) (path : List String) :
    merge dest [] path = .ok dest := by
  rw [merge]

/-- A conflict found after processing a fresh head entry was already a
conflict of the original destination against the remaining source. -/
theorem conflictAt_shift (dest rest : Entries) (key : String) (w sv : Tree)
    (ks : List String) (hkeyrest : findKey rest key = none)
    (hc : MergeConflictAt (setKey dest key w) rest ks) :
    MergeConflictAt dest ((key, sv) :: rest) ks := by
  cases hc with
  | @here _ _ k v w2 hA hB h1 h2 =>
    have hk : ¬ key = k := by
      intro h
      subst h
      rw [hkeyrest] at hB
      cases hB
    rw [findKey_setKey_ne _ _ _ _ hk] at hA
    exact .here hA (by simp only [findKey, if_neg hk]; exact hB) h1 h2
  | @there _ _ A2 B2 k ks2 hA hB hsub =>
    have hk : ¬ key = k := by
      intro h
      subst h
      rw [hkeyrest] at hB
      cases hB
    rw [findKey_setKey_ne _ _ _ _ hk] at hA
    exact .there hA (by simp only [findKey, if_neg hk]; exact hB) hsub

/-- Every error coming out of `merge` carries exactly the message built by
line 35 for a dotted path at which the two trees genuinely conflict. -/
theorem merge_error_spec (n : Nat) : ∀ (src : Entries), sizeOf src < n →
    ∀ (dest : Entries) (path : List String) (e : String),
    wfDict src = true → merge dest src path = .error e →
    ∃ ks, e = mergeErrMsg (path ++ ks) ∧ MergeConflictAt dest src ks := by
  induction n with
  | zero => intro src h; omega
  | succ n ih =>
    rintro src hsz dest path e hwf herr
    rcases src with _ | ⟨⟨key, sv⟩, rest⟩
    · rw [merge_nil] at herr
      cases herr
    · simp only [wfDict, nodupKeys, wfEntries, Bool.and_eq_true,
        Option.isNone_iff_eq_none] at hwf
      obtain ⟨⟨hkeyrest, hndrest⟩, hwfsv, hwfrest⟩ := hwf
      have hszrest : sizeOf rest < n := by simp at hsz; omega
      rcases hdk : findKey dest key with _ | dv
      · rw [merge_cons_new dest key sv rest path hdk] at herr
        obtain ⟨ks, hmsg, hconf⟩ := ih rest hszrest (setKey dest key sv)
          path e (by simp [wfDict, hndrest, hwfrest]) herr
        exact ⟨ks, hmsg, conflictAt_shift dest rest key sv sv ks hkeyrest hconf⟩
      · by_cases h1 : (dv.isDict && Tree.isDict sv) = true
        · simp only [Bool.and_eq_true] at h1
          obtain ⟨dEs, rfl⟩ := (isDict_iff dv).mp h1.1
          obtain ⟨sEs, rfl⟩ := (isDict_iff sv).mp h1.2
          rw [merge_cons_dictdict dest key _ _ rest path hdk] at herr
          rcases hsub : merge dEs sEs (path ++ [key]) with e0 | m <;>
            rw [hsub] at herr
          · have herr2 : (Except.error e0 : Except String Entries) =
                .error e := herr
            cases herr2
            have hszsub : sizeOf sEs < n := by simp at hsz; omega
            obtain ⟨ks, hmsg, hconf⟩ := ih sEs hszsub dEs (path ++ [key]) e
              (by simpa [wfDict, wfTree] using hwfsv) hsub
            refine ⟨key :: ks, ?_, ?_⟩
            · rw [hmsg]
              simp [mergeErrMsg]
            · exact .there hdk (by simp [findKey]) hconf
          · have herr2 : merge (setKey dest key (.dict m)) rest path =
                .error e := herr
            obtain ⟨ks, hmsg, hconf⟩ := ih rest hszrest
              (setKey dest key (.dict m)) path e
              (by simp [wfDict, hndrest, hwfrest]) herr2
            exact ⟨ks, hmsg,
              conflictAt_shift dest rest key (.dict m) (.dict sEs) ks
                hkeyrest hconf⟩
        · by_cases h2 : (dv.isArr && Tree.isArr sv) = true
          · simp only [Bool.and_eq_true] at h2
            obtain ⟨dXs, rfl⟩ := (isArr_iff dv).mp h2.1
            obtain ⟨sXs, rfl⟩ := (isArr_iff sv).mp h2.2
            rw [merge_cons_arrarr dest key _ _ rest path hdk] at herr
            obtain ⟨ks, hmsg, hconf⟩ := ih rest hszrest
              (setKey dest key (.arr (dXs ++ sXs))) path e
              (by simp [wfDict, hndrest, hwfrest]) herr
            exact ⟨ks, hmsg,
              conflictAt_shift dest rest key (.arr (dXs ++ sXs)) (.arr sXs)
                ks hkeyrest hconf⟩
          · rw [merge_cons_conflict dest key dv sv rest path hdk
              (bool_false_of_not_true h1) (bool_false_of_not_true h2)] at herr
            cases herr
            refine ⟨[key], rfl, .here hdk (by simp [findKey])
              (bool_false_of_not_true h1) (bool_false_of_not_true h2)⟩

/-- C3. Whenever one tree binds a key to a dict and the other binds the
same key (at any depth along a dict-dict path) to a scalar, `merge` throws,
and the thrown message is exactly the line-35 message naming the full
dotted path of a genuinely conflicting key. -/
theorem c3_dict_scalar_conflict_throws (A B : Entries) (ks : List String)
    (hB : wfDict B = true) (hc : DictScalarConflictAt A B ks) :
    ∃ ks2, merge A B [] = .error (mergeErrMsg ks2) ∧
      MergeConflictAt A B ks2 := by
  obtain ⟨e, he⟩ := merge_error_of_dict_scalar hc [] hB
  obtain ⟨ks2, hmsg, hconf⟩ :=
    merge_error_spec (sizeOf B + 1) B (by omega) A [] e hB he
  subst hmsg
  exact ⟨ks2, by simpa using he, hconf⟩

/-- Concrete trees for the C3 witness: B binds example.something to a
scalar where A binds it to a dict, two levels deep. -/
def c3A : Entries := [("example", .dict [("something", .dict [("a", .int 1)])])]

def c3B : Entries := [("example", .dict [("something", .int 7)])]

/-- Witness for C3 at a concrete dict-versus-scalar collision. -/
theorem c3_witness :
    ∃ ks2, merge c3A c3B [] = .error (mergeErrMsg ks2) ∧
      MergeConflictAt c3A c3B ks2 :=
  c3_dict_scalar_conflict_throws c3A c3B ["example", "something"] (by rfl)
    (.there (by rfl) (by rfl) (.here (by rfl) (by rfl) (by rfl)))


/-! ### Explicit-heap embedding of `merge` and `explode`

`explode` (ctemplate.ts lines 43-61) mutates its argument in place: it
deletes dotted keys, allocates a fresh chain of nested objects, merges the
chain back into the object, and then calls itself on the extracted `value`
object. Whether that recursive call is observable depends on whether
`merge` installed `value` into the tree by reference (key chain partially
absent) or copied its entries into an existing dict (full chain present, so
`value` becomes an orphan). A faithful embedding therefore works on an
explicit heap of objects addressed by references. -/

abbrev Ref := Nat

/-- Heap values: scalars are inline, objects live behind references. -/
inductive HVal where
  | null : HVal
  | bool : Bool → HVal
  | int : Int → HVal
  | str : String → HVal
  | ref : Ref → HVal
deriving Repr, DecidableEq

/-- Heap objects: JavaScript objects (dicts) and arrays. -/
inductive HObj where
  | dict : List (String × HVal) → HObj
  | arr : List HVal → HObj
deriving Repr, DecidableEq

abbrev HEntries := List (String × HVal)

structure Heap where
  objs : List (Ref × HObj)
  next : Ref
deriving Repr, DecidableEq

def hfind : List (Ref × HObj) → Ref → Option HObj
  | [], _ => none
  | (r2, o) :: rest, r => if r2 = r then some o else hfind rest r

def hset : List (Ref × HObj) → Ref → HObj → List (Ref × HObj)
  | [], r, o => [(r, o)]
  | (r2, o2) :: rest, r, o =>
    if r2 = r then (r2, o) :: rest else (r2, o2) :: hset rest r o

def Heap.get (h : Heap) (r : Ref) : Option HObj := hfind h.objs r

def Heap.set (h : Heap) (r : Ref) (o : HObj) : Heap := ⟨hset h.objs r o, h.next⟩

def Heap.alloc (h : Heap) (o : HObj) : Heap × Ref :=
  (⟨h.objs ++ [(h.next, o)], h.next + 1⟩, h.next)

def findKeyH : HEntries → String → Option HVal
  | [], _ => none
  | (k, v) :: rest, key => if k = key then some v else findKeyH rest key

/-- Embeds `delete o[key]` on a JavaScript object. -/
def eraseKeyH : HEntries → String → HEntries
  | [], _ => []
  | (k, v) :: rest, key => if k = key then rest else (k, v) :: eraseKeyH rest key

/-- Reads a value as a dict object: reference plus current entries. -/
def getDict (h : Heap) : HVal → Option (Ref × HEntries)
  | .ref r =>
    match h.get r with
    | some (.dict es) => some (r, es)
    | _ => none
  | _ => none

/-- Reads a value as an array object: reference plus current elements. -/
def getArr (h : Heap) : HVal → Option (Ref × List HVal)
  | .ref r =>
    match h.get r with
    | some (.arr xs) => some (r, xs)
    | _ => none
  | _ => none

/-- One pass of the `merge` loop (lines 28-40) over the snapshot of the
source entries, on the heap. `rec` is the recursive dict-dict merge. The
source object is only read, never written, matching the JavaScript loop. -/
def mergeEntriesH
    (rec : Heap → Ref → Ref → List String → Except String Heap)
    (h : Heap) (destR : Ref) (es : HEntries) (path : List String) :
    Except String Heap :=
  match es with
  | [] => .ok h
  | (key, sv) :: rest =>
    match h.get destR with
    | some (.dict des) =>
      match findKeyH des key with
      | none =>
        -- line 38: dest[key] = src[key], inserting the value by reference
        mergeEntriesH rec (h.set destR (.dict (des ++ [(key, sv)])))
          destR rest path
      | some dv =>
        match getDict h dv, getDict h sv with
        | some (dr, _), some (sr, _) =>
          -- line 31: recursive merge of two dict objects
          match rec h dr sr (path ++ [key]) with
          | .ok h2 => mergeEntriesH rec h2 destR rest path
          | .error e => .error e
        | _, _ =>
          match getArr h dv, getArr h sv with
          | some (dr, dXs), some (_, sXs) =>
            -- line 33: dest[key].push(...src[key]), mutating the array
            mergeEntriesH rec (h.set dr (.arr (dXs ++ sXs))) destR rest path
          | _, _ => .error (mergeErrMsg (path ++ [key]))
    | _ => .error "merge: destination is not a dict"

/-- Heap-level `merge(dest, src, path)`; the fuel only bounds dict-dict
recursion depth and is irrelevant on the tree-shaped heaps of actual runs. -/
def mergeH : Nat → Heap → Ref → Ref → List String → Except String Heap
  | 0, _, _, _, _ => .error "fuel exhausted"
  | fuel + 1, h, destR, srcR, path =>
    match h.get srcR with
    | some (.dict ses) => mergeEntriesH (mergeH fuel) h destR ses path
    | _ => .error "merge: source is not a dict"

/-- Builds the fresh `head` chain of lines 49-51: nested single-key dicts
for every segment but the last, the last segment binding `value`. -/
def allocChain (h : Heap) (segs : List String) (lastKey : String)
    (v : HVal) : Heap × Ref :=
  match segs with
  | [] => h.alloc (.dict [(lastKey, v)])
  | s :: rest =>
    let (h2, r) := allocChain h rest lastKey v
    h2.alloc (.dict [(s, .ref r)])

/-- Character-level worker for `key.split(".")`. -/
def splitDotsAux : List Char → List Char → List String
  | [], acc => [acc.reverse.asString]
  | c :: rest, acc =>
    if c = '.' then acc.reverse.asString :: splitDotsAux rest []
    else splitDotsAux rest (c :: acc)

/-- Embeds `key.split(".")` (line 45): maximal dot-free segments, with
empty segments kept, and `[""]` on the empty string, as in JavaScript. -/
def splitDots (s : String) : List String := splitDotsAux s.data []

/-- The body of `Object.keys(o).forEach` in `explode` (lines 44-59), over
the key snapshot. `recE` and `recM` are the recursive explode and merge. -/
def explodeKeysH
    (recE : Heap → Ref → List String → Except String Heap)
    (recM : Heap → Ref → Ref → List String → Except String Heap)
    (h : Heap) (oR : Ref) (keys : List String) (path : List String) :
    Except String Heap :=
  match keys with
  | [] => .ok h
  | key :: rest =>
    match h.get oR with
    | some (.dict es) =>
      match findKeyH es key with
      | none => explodeKeysH recE recM h oR rest path
      | some value =>
        let list := splitDots key
        if list.length > 1 then
          -- delete o[key], build head, merge(o, head, [...path, list[0]]),
          -- then explode(value, list) in place when value is a dict
          let h1 := h.set oR (.dict (eraseKeyH es key))
          let (h2, headR) := allocChain h1 list.dropLast (list.getLastD "") value
          match recM h2 oR headR (path ++ [list.headD ""]) with
          | .error e => .error e
          | .ok h3 =>
            match getDict h3 value with
            | some (vr, _) =>
              match recE h3 vr list with
              | .ok h4 => explodeKeysH recE recM h4 oR rest path
              | .error e => .error e
            | none => explodeKeysH recE recM h3 oR rest path
        else
          match getDict h value with
          | some (vr, _) =>
            match recE h vr (path ++ [key]) with
            | .ok h2 => explodeKeysH recE recM h2 oR rest path
            | .error e => .error e
          | none => explodeKeysH recE recM h oR rest path
    | _ => .error "explode: not a dict"

/-- Heap-level `explode(o, path)`: snapshot of the keys first, as
`Object.keys` does, then the per-key body. -/
def explodeH : Nat → Heap → Ref → List String → Except String Heap
  | 0, _, _, _ => .error "fuel exhausted"
  | fuel + 1, h, oR, path =>
    match h.get oR with
    | some (.dict es) =>
      explodeKeysH (explodeH fuel) (mergeH fuel) h oR (es.map Prod.fst) path
    | _ => .error "explode: not a dict"

def extractEntries (rec : HVal → Option Tree) : HEntries →
    Option (List (String × Tree))
  | [] => some []
  | (k, v) :: rest =>
    match rec v, extractEntries rec rest with
    | some t, some ts => some ((k, t) :: ts)
    | _, _ => none

def extractList (rec : HVal → Option Tree) : List HVal → Option (List Tree)
  | [] => some []
  | v :: rest =>
    match rec v, extractList rec rest with
    | some t, some ts => some (t :: ts)
    | _, _ => none

/-- Reads the tree rooted at a heap value back into a pure `Tree`. -/
def extractV : Nat → Heap → HVal → Option Tree
  | _, _, .null => some .null
  | _, _, .bool b => some (.bool b)
  | _, _, .int n => some (.int n)
  | _, _, .str s => some (.str s)
  | 0, _, .ref _ => none
  | fuel + 1, h, .ref r =>
    match h.get r with
    | some (.dict es) => (extractEntries (extractV fuel h) es).map .dict
    | some (.arr xs) => (extractList (extractV fuel h) xs).map .arr
    | none => none


mutual

/-- A tree is already exploded when no key anywhere in it contains the dot
separator (`key.split(".")` yields a single segment everywhere). -/
def noDots : Tree → Bool
  | .dict es => noDotsEntries es
  | .arr xs => noDotsList xs
  | _ => true

def noDotsEntries : Entries → Bool
  | [] => true
  | (k, v) :: rest =>
    ((splitDots k).length == 1) && noDots v && noDotsEntries rest

def noDotsList : List Tree → Bool
  | [] => true
  | v :: rest => noDots v && noDotsList rest

end

theorem extractEntries_findKey (rec : HVal → Option Tree) (es : HEntries)
    (tes : List (String × Tree)) (k : String) (v : HVal)
    (hex : extractEntries rec es = some tes) (hf : findKeyH es k = some v) :
    ∃ tv, rec v = some tv ∧ findKey tes k = some tv := by
  induction es generalizing tes with
  | nil => cases hf
  | cons hd rest ih =>
    obtain ⟨k2, v2⟩ := hd
    simp only [extractEntries] at hex
    rcases h1 : rec v2 with _ | t2 <;> rw [h1] at hex
    · cases hex
    · rcases h2 : extractEntries rec rest with _ | ts <;> rw [h2] at hex
      · cases hex
      · cases hex
        simp only [findKeyH] at hf
        by_cases he : k2 = k
        · rw [if_pos he] at hf
          cases hf
          exact ⟨t2, h1, by simp [findKey, he]⟩
        · rw [if_neg he] at hf
          obtain ⟨tv, htv, hftv⟩ := ih ts h2 hf
          exact ⟨tv, htv, by simp [findKey, he, hftv]⟩

theorem noDotsEntries_findKey (tes : List (String × Tree)) (k : String)
    (tv : Tree) (hnd : noDotsEntries tes = true)
    (hf : findKey tes k = some tv) :
    (splitDots k).length = 1 ∧ noDots tv = true := by
  induction tes with
  | nil => cases hf
  | cons hd rest ih =>
    obtain ⟨k2, v2⟩ := hd
    simp only [noDotsEntries, Bool.and_eq_true] at hnd
    simp only [findKey] at hf
    by_cases he : k2 = k
    · rw [if_pos he] at hf
      cases hf
      subst he
      exact ⟨by simpa using hnd.1.1, hnd.1.2⟩
    · rw [if_neg he] at hf
      exact ih hnd.2 hf

theorem getDict_spec (h : Heap) (v : HVal) (r : Ref) (es : HEntries)
    (hg : getDict h v = some (r, es)) :
    v = .ref r ∧ h.get r = some (.dict es) := by
  cases v <;> simp only [getDict] at hg
  · cases hg
  · cases hg
  · cases hg
  · cases hg
  · rename_i r2
    rcases h2 : h.get r2 with _ | obj <;> rw [h2] at hg
    · cases hg
    · cases obj
      · simp at hg
        obtain ⟨h3, h4⟩ := hg
        subst h3 h4
        exact ⟨rfl, h2⟩
      · cases hg

theorem extractV_ref_dict (fuel : Nat) (h : Heap) (vr : Ref) (es2 : HEntries)
    (tv : Tree) (hget : h.get vr = some (.dict es2))
    (hex : extractV fuel h (.ref vr) = some tv) :
    ∃ tes2, tv = .dict tes2 := by
  cases fuel with
  | zero => cases hex
  | succ n =>
    simp only [extractV, hget] at hex
    rcases h2 : extractEntries (extractV n h) es2 with _ | tes2 <;>
      rw [h2] at hex
    · cases hex
    · cases hex
      exact ⟨tes2, rfl⟩

/-- The per-key body of `explode` does nothing on an object whose extracted
tree has no dotted keys: no key enters the explosion branch, and recursion
into dict values leaves the heap untouched. -/
theorem explodeKeysH_noDots (fuel : Nat)
    (IH : ∀ (h : Heap) (r : Ref) (p : List String) (tes : Entries),
      extractV fuel h (.ref r) = some (.dict tes) →
      noDots (.dict tes) = true → explodeH fuel h r p = .ok h)
    (h : Heap) (r : Ref) (es : HEntries) (tes : Entries)
    (hg : h.get r = some (.dict es))
    (hex : extractEntries (extractV fuel h) es = some tes)
    (hnd : noDotsEntries tes = true) :
    ∀ (keys : List String) (p : List String),
      explodeKeysH (explodeH fuel) (mergeH fuel) h r keys p = .ok h := by
  intro keys
  induction keys with
  | nil => intro p; rfl
  | cons key rest ihk =>
    intro p
    rcases hfk : findKeyH es key with _ | value
    · simp only [explodeKeysH, hg, hfk]
      exact ihk p
    · obtain ⟨tv, hve, htf⟩ :=
        extractEntries_findKey (extractV fuel h) es tes key value hex hfk
      obtain ⟨hlen, hndtv⟩ := noDotsEntries_findKey tes key tv hnd htf
      simp only [explodeKeysH, hg, hfk, hlen, gt_iff_lt, Nat.lt_irrefl,
        if_false]
      rcases hvd : getDict h value with _ | ⟨vr, es2⟩
      · exact ihk p
      · obtain ⟨hvref, hvget⟩ := getDict_spec h value vr es2 hvd
        subst hvref
        obtain ⟨tes2, rfl⟩ :=
          extractV_ref_dict fuel h vr es2 tv hvget hve
        show (match explodeH fuel h vr (p ++ [key]) with
          | .ok h4 => explodeKeysH (explodeH fuel) (mergeH fuel) h4 r rest p
          | .error e => .error e) = .ok h
        rw [IH h vr (p ++ [key]) tes2 hve hndtv]
        exact ihk p

/-- Running `explode` on an object whose tree contains no dotted key at any
depth returns the heap entirely unchanged. -/
theorem explodeH_noDots (fuel : Nat) : ∀ (h : Heap) (r : Ref)
    (p : List String) (tes : Entries),
    extractV fuel h (.ref r) = some (.dict tes) →
    noDots (.dict tes) = true → explodeH fuel h r p = .ok h := by
  induction fuel with
  | zero => intro h r p tes hex; cases hex
  | succ n ih =>
    intro h r p tes hex hnd
    simp only [extractV] at hex
    rcases hget : h.get r with _ | obj <;> rw [hget] at hex
    · cases hex
    · cases obj with
      | dict es =>
        have hexm : (extractEntries (extractV n h) es).map Tree.dict =
            some (Tree.dict tes) := hex
        have hex2 : extractEntries (extractV n h) es = some tes := by
          rcases hmap : extractEntries (extractV n h) es with _ | tes2 <;>
            rw [hmap] at hexm
          · cases hexm
          · cases hexm
            rfl
        simp only [explodeH, hget]
        exact explodeKeysH_noDots n ih h r es tes hget hex2
          (by simpa [noDots] using hnd) (es.map Prod.fst) p
      | arr xs =>
        have hexm : (extractList (extractV n h) xs).map Tree.arr =
            some (Tree.dict tes) := hex
        rcases hmap : extractList (extractV n h) xs with _ | ts <;>
          rw [hmap] at hexm
        · cases hexm
        · cases hexm


/-- C4 (amended). Applying `explode` to an already-exploded tree - one with
no dot-containing key at any depth - changes nothing: the whole heap comes
back unchanged. (Unrestricted idempotence fails; see the counterexample.) -/
theorem c4_explode_noop_on_already_exploded (fuel : Nat) (h : Heap) (r : Ref)
    (p : List String) (tes : Entries)
    (hex : extractV fuel h (.ref r) = some (.dict tes))
    (hnd : noDots (.dict tes) = true) :
    explodeH fuel h r p = .ok h :=
  explodeH_noDots fuel h r p tes hex hnd

def c4WitnessHeap : Heap := ⟨[(0, .dict [("k", .int 1), ("m", .ref 1)]),
                             (1, .dict [("n", .int 2)])], 2⟩

/-- Witness for the amended C4: a concrete dot-free two-level tree is left
untouched by `explode`. -/
theorem c4_witness : explodeH 5 c4WitnessHeap 0 [] = .ok c4WitnessHeap :=
  c4_explode_noop_on_already_exploded 5 c4WitnessHeap 0 []
    [("k", .int 1), ("m", .dict [("n", .int 2)])] (by rfl) (by rfl)

/-- The tree `{"a": {"b": {}}, "a.b": {"c.d": 1}}`, loaded on a heap. When
`explode` treats the dotted key `a.b`, the chain `a -> b` already exists as
dicts, so `merge` copies the entries of the extracted value object into the
existing `o.a.b` and the subsequent in-place `explode(value, list)` call
mutates an unreachable orphan: the inner dotted key `c.d` survives. -/
def c4Heap : Heap := ⟨[(0, .dict [("a", .ref 1), ("a.b", .ref 2)]),
                      (1, .dict [("b", .ref 3)]),
                      (2, .dict [("c.d", .int 1)]),
                      (3, .dict [])], 4⟩

/-- The tree extracted after exploding `c4Heap` once. -/
def c4Once : Option Tree :=
  match explodeH 20 c4Heap 0 [] with
  | .ok h => extractV 20 h (.ref 0)
  | .error _ => none

/-- The tree extracted after exploding `c4Heap` twice in sequence. -/
def c4Twice : Option Tree :=
  match explodeH 20 c4Heap 0 [] with
  | .ok h =>
    match explodeH 20 h 0 [] with
    | .ok h2 => extractV 20 h2 (.ref 0)
    | .error _ => none
  | .error _ => none

/-- Counterexample to C4 as stated: on `{"a":{"b":{}},"a.b":{"c.d":1}}`
`explode` succeeds but is not idempotent - the first pass leaves the dotted
key `c.d` in place and the second pass explodes it, so
`explode(explode(T)) != explode(T)`. -/
theorem c4_counterexample :
    c4Once = some (.dict [("a", .dict [("b", .dict [("c.d", .int 1)])])]) ∧
    c4Twice = some (.dict
      [("a", .dict [("b", .dict [("c", .dict [("d", .int 1)])])])]) ∧
    c4Twice ≠ c4Once := by
  refine ⟨rfl, rfl, ?_⟩
  intro heq
  rw [show c4Once = some (.dict
      [("a", .dict [("b", .dict [("c.d", .int 1)])])]) from rfl,
    show c4Twice = some (.dict
      [("a", .dict [("b", .dict [("c", .dict [("d", .int 1)])])])]) from rfl]
    at heq
  simp [Tree.dict.injEq] at heq


mutual

/-- Equality of JSON values: arrays compare elementwise in order, objects
compare as key-value maps (JSON object members are unordered), scalars
compare directly. -/
def jsonEq : Tree → Tree → Bool
  | .null, .null => true
  | .bool a, .bool b => a == b
  | .int a, .int b => a == b
  | .str a, .str b => a == b
  | .arr xs, .arr ys => jsonEqList xs ys
  | .dict es1, .dict es2 => (es1.length == es2.length) && jsonEqEntries es1 es2
  | _, _ => false

def jsonEqEntries : Entries → Entries → Bool
  | [], _ => true
  | (k, v) :: rest, es2 =>
    (match findKey es2 k with
     | some w => jsonEq v w
     | none => false) && jsonEqEntries rest es2

def jsonEqList : List Tree → List Tree → Bool
  | [], [] => true
  | x :: xs, y :: ys => jsonEq x y && jsonEqList xs ys
  | _, _ => false

end

/-- The dict `{"a.b.c.d": 42}`, loaded on a heap. -/
def c5HeapA : Heap := ⟨[(0, .dict [("a.b.c.d", .int 42)])], 1⟩

def c5ExplodedA : Option Tree :=
  match explodeH 20 c5HeapA 0 [] with
  | .ok h => extractV 20 h (.ref 0)
  | .error _ => none

/-- One heap holding the empty accumulator of the `processFiles` fold (ref
0) and the two parsed config fragments of the spec example (refs 1 and 3). -/
def c5Heap : Heap := ⟨[
  (0, .dict []),
  (1, .dict [("example.array", .ref 2), ("example.something.a", .int 1),
             ("someMember", .int 42)]),
  (2, .arr [.int 1, .int 2]),
  (3, .dict [("example", .ref 4)]),
  (4, .dict [("array", .ref 5), ("something", .ref 6)]),
  (5, .arr [.int 3, .int 4]),
  (6, .dict [("b", .int 2)])], 7⟩

/-- The fold of ctemplate.ts lines 107-120 on the two fragments: explode
each fragment, then merge it into the accumulator, in file order. -/
def c5Result : Option Tree :=
  match explodeH 30 c5Heap 1 [] with
  | .ok h1 =>
    match mergeH 30 h1 0 1 [] with
    | .ok h2 =>
      match explodeH 30 h2 3 [] with
      | .ok h3 =>
        match mergeH 30 h3 0 3 [] with
        | .ok h4 => extractV 30 h4 (.ref 0)
        | .error _ => none
      | .error _ => none
    | .error _ => none
  | .error _ => none

/-- The configuration tree the spec expects from the two fragments. -/
def c5Expected : Tree :=
  .dict [("example", .dict
            [("array", .arr [.int 1, .int 2, .int 3, .int 4]),
             ("something", .dict [("a", .int 1), ("b", .int 2)])]),
         ("someMember", .int 42)]

/-- C5. `explode({"a.b.c.d": 42})` yields the four-level nesting, and
exploding then merging the two spec fragments yields exactly the expected
configuration as a JSON value. The literal insertion order produced by the
code puts `someMember` first (deleting a dotted key and merging the chain
re-appends `example` at the end), which is equal to the expected object as
a JSON value, where object member order carries no meaning. -/
theorem c5_explode_merge_examples :
    c5ExplodedA = some (.dict
      [("a", .dict [("b", .dict [("c", .dict [("d", .int 42)])])])]) ∧
    c5Result = some (.dict
      [("someMember", .int 42),
       ("example", .dict
         [("array", .arr [.int 1, .int 2, .int 3, .int 4]),
          ("something", .dict [("a", .int 1), ("b", .int 2)])])]) ∧
    (match c5Result with
     | some t => jsonEq t c5Expected && jsonEq c5Expected t
     | none => false) = true :=
  ⟨rfl, rfl, rfl⟩


/-! ### Template block scanner

Lines 171-174 of ctemplate.ts replace every match of
`(?:\r?\n?<\?\?|<\?)(.+?)(?:\?\?>\r?\n?|\?>)` (flags g and s) by the
block's evaluation result, with strictly-undefined results replaced by the
empty string and all other results coerced to strings. The scanner below
implements exactly that regex: leftmost match, open alternatives tried in
order, lazy body, close alternatives tried in order, and the long markers
consuming the adjacent `\r?\n?`. -/

/-- A value a template block's script can evaluate to. -/
inductive JsVal where
  | null : JsVal
  | bool : Bool → JsVal
  | int : Int → JsVal
  | str : String → JsVal

/-- The outcome of `vm.runInContext` for one block: strictly undefined, or
some value. -/
inductive BlockResult where
  | undef : BlockResult
  | val : JsVal → BlockResult

/-- JavaScript string coercion, as `String.prototype.replace` applies to a
non-string callback result; in particular `null` becomes "null". -/
def jsValToString : JsVal → String
  | .null => "null"
  | .bool true => "true"
  | .bool false => "false"
  | .int n => toString n
  | .str s => s

/-- Line 173: `output === undefined ? "" : output`, then string coercion. -/
def renderResult : BlockResult → String
  | .undef => ""
  | .val v => jsValToString v

/-- Open alternative 1, `\r?\n?<\?\?`: optionally a carriage return, then
optionally a newline, then the long open marker. -/
def tryOpenLong (cs : List Char) : Option (List Char) :=
  let cs1 := match cs with
    | '\r' :: rest => rest
    | _ => cs
  let cs2 := match cs1 with
    | '\n' :: rest => rest
    | _ => cs1
  match cs2 with
  | '<' :: '?' :: '?' :: rest => some rest
  | _ => none

/-- Open alternative 2, `<\?`. -/
def tryOpenShort : List Char → Option (List Char)
  | '<' :: '?' :: rest => some rest
  | _ => none

/-- The close marker, `(?:\?\?>\r?\n?|\?>)`: the long form wins when it
matches and swallows an optional following carriage return and newline. -/
def tryClose (cs : List Char) : Option (List Char) :=
  match cs with
  | '?' :: '?' :: '>' :: rest =>
    let r1 := match rest with
      | '\r' :: r => r
      | _ => rest
    let r2 := match r1 with
      | '\n' :: r => r
      | _ => r1
    some r2
  | '?' :: '>' :: rest => some rest
  | _ => none

/-- Lazy body search for `(.+?)`: try the close marker after every added
character, shortest body first; `acc` holds the body so far, reversed. The
text runs out before a close marker only when there is no match at all. -/
def findBody (acc : List Char) : List Char → Option (String × List Char)
  | [] => none
  | c :: rest =>
    match tryClose (c :: rest) with
    | some r => some (acc.reverse.asString, r)
    | none => findBody (c :: acc) rest

/-- A whole-block match attempt at one position: the long open alternative
first, falling back to the short one (as regex alternation and
backtracking do); the body must be nonempty. -/
def tryMatchBlock (cs : List Char) : Option (String × List Char) :=
  let short : Option (String × List Char) :=
    match tryOpenShort cs with
    | some (c :: r) => findBody [c] r
    | _ => none
  match tryOpenLong cs with
  | some (c :: r) =>
    match findBody [c] r with
    | some res => some res
    | none => short
  | some [] => short
  | none => short

/-- Global scan of the template text: successive leftmost matches replaced
by the rendered block results, all other text passed through. The fuel is
the text length; every step consumes at least one character. -/
def templateGo (ev : String → BlockResult) : Nat → List Char → List Char
  | 0, cs => cs
  | _ + 1, [] => []
  | fuel + 1, c :: rest =>
    match tryMatchBlock (c :: rest) with
    | some (body, after) =>
      (renderResult (ev body)).data ++ templateGo ev fuel after
    | none => c :: templateGo ev fuel rest

/-- The `.replace` call of lines 171-174, with `ev` standing for running
the block's code in the vm context. -/
def processTemplate (s : String) (ev : String → BlockResult) : String :=
  (templateGo ev s.data.length s.data).asString

/-- C6. The long marker forms trim the adjacent newline and the short forms
keep it, independently per side: for a block evaluating to the string `s`,
`"X\n<??code??>\nY"` gives `"X" ++ s ++ "Y"`, `"X\n<?code?>\nY"` keeps both
newlines, and the mixed forms trim exactly their own side. -/
theorem c6_long_markers_trim_newlines (s : String) :
    processTemplate "X\n<??code??>\nY" (fun _ => .val (.str s)) =
      "X" ++ s ++ "Y" ∧
    processTemplate "X\n<?code?>\nY" (fun _ => .val (.str s)) =
      "X\n" ++ s ++ "\nY" ∧
    processTemplate "X\n<??code?>\nY" (fun _ => .val (.str s)) =
      "X" ++ s ++ "\nY" ∧
    processTemplate "X\n<?code??>\nY" (fun _ => .val (.str s)) =
      "X\n" ++ s ++ "Y" := by
  obtain ⟨sl⟩ := s
  exact ⟨rfl, rfl, rfl, rfl⟩


/-- C7. A block whose evaluation is undefined (no meaningful value) is
replaced by the empty string: the entire matched span vanishes, including
any newlines the long marker variants consumed as part of the span, and
contributes zero characters. Short markers leave their newlines outside
the span, so those remain. -/
theorem c7_undefined_block_vanishes :
    processTemplate "X\n<??code??>\nY" (fun _ => .undef) = "XY" ∧
    processTemplate "X\n<?code?>\nY" (fun _ => .undef) = "X\n\nY" ∧
    processTemplate "X\n<??code?>\nY" (fun _ => .undef) = "X\nY" ∧
    processTemplate "X\n<?code??>\nY" (fun _ => .undef) = "X\nY" :=
  ⟨rfl, rfl, rfl, rfl⟩

/-- C10. Only a strictly undefined block result produces an empty
replacement; every other result, null included, is coerced to its string
form and spliced into the output - a null block contributes the four
characters of "null". -/
theorem c10_only_undefined_is_empty (r : BlockResult) :
    processTemplate "A<?b?>B" (fun _ => r) = "A" ++ renderResult r ++ "B" ∧
    renderResult .undef = "" ∧
    renderResult (.val .null) = "null" ∧
    processTemplate "A<?b?>B" (fun _ => .val .null) = "AnullB" := by
  refine ⟨?_, rfl, rfl, rfl⟩
  have h : ∀ t : String, String.mk ('A' :: (t.data ++ ['B'])) =
      "A" ++ t ++ "B" := by
    intro t
    obtain ⟨tl⟩ := t
    rfl
  exact h (renderResult r)


/-! ### The `Clib.format` reformatter

`Clib.format` (cLib.ts lines 360-386) is three regex passes followed by a
final right-trim. Stage 1 copies string/char literals verbatim and deletes
every run of tab/newline/carriage-return outside them. Stage 2 is the
stateful scan over `(=\s*\{)|(\{)|([,;}])|(string)`. Stage 3 replaces
`\n(\t*)[ ]+|\n[\t ]+\n` by `"\n$1"`. Braces are written with their
character codes throughout. -/

/-- The ASCII part of the JavaScript `\s` class (the class also holds
Unicode spaces, irrelevant for the ASCII inputs considered here). -/
def isJsSpace (c : Char) : Bool :=
  c = ' ' || c = '\t' || c = '\n' || c = '\r' || c = '\x0b' || c = '\x0c'

/-- Body of a double-quoted literal, `(?:\\"|[^"])+"`, starting after the
opening quote: greedily prefer the two-character `\"` token and fall back,
as regex backtracking does, to reading the backslash alone with the quote
closing the literal. Returns the consumed span (closing quote included)
and the rest. -/
def dqBody : List Char → Option (List Char × List Char)
  | [] => none
  | '"' :: rest => some (['"'], rest)
  | '\\' :: '"' :: rest =>
    (match dqBody rest with
     | some (seg, r) => some ('\\' :: '"' :: seg, r)
     | none => some (['\\', '"'], rest))
  | c :: rest =>
    match dqBody rest with
    | some (seg, r) => some (c :: seg, r)
    | none => none

/-- One string/char literal alternative of cLib.ts:
`"(?:\\"|[^"])+"`, then `'\\''`, then `'[^']'`, in that order. -/
def matchStringLit : List Char → Option (List Char × List Char)
  | '"' :: rest =>
    (match dqBody rest with
     | some (seg, r) =>
       if 2 ≤ seg.length then some ('"' :: seg, r) else none
     | none => none)
  | '\'' :: '\\' :: '\'' :: '\'' :: rest =>
    some (['\'', '\\', '\'', '\''], rest)
  | '\'' :: c :: '\'' :: rest =>
    if c = '\'' then none else some (['\'', c, '\''], rest)
  | _ => none

/-- Stage 1 (line 364): literals verbatim, `[\t\n\r]+` outside them erased,
all other characters unchanged. -/
def stage1 : Nat → List Char → List Char
  | 0, cs => cs
  | _ + 1, [] => []
  | fuel + 1, c :: rest =>
    match matchStringLit (c :: rest) with
    | some (lit, r) => lit ++ stage1 fuel r
    | none =>
      if c = '\t' ∨ c = '\n' ∨ c = '\r' then stage1 fuel rest
      else c :: stage1 fuel rest

/-- The `=\s*\{` alternative: an equals sign, any run of whitespace, an
opening brace; returns the rest after the brace. -/
def matchEqBrace : List Char → Option (List Char)
  | '=' :: rest =>
    (match rest.dropWhile isJsSpace with
     | '\x7b' :: r => some r
     | _ => none)
  | _ => none

/-- The scan state of stage 2: the indent (a count of tabs, since the
indent string only ever gains and loses tabs) and the initializer-list
mode counter. -/
structure FmtState where
  ind : Nat
  mode : Nat
deriving Repr, DecidableEq

def tabs (n : Nat) : String := String.mk (List.replicate n '\t')

/-- Stage 2 (lines 365-384): the stateful scan. Alternatives in regex
order: `=\s*\{`, then a bare opening brace, then `[,;}]`, then a string
literal copied verbatim; anything else passes through. `indent.slice(1)`
becomes the truncated predecessor on the tab count. -/
def stage2 : Nat → FmtState → List Char → List Char
  | 0, _, cs => cs
  | _ + 1, _, [] => []
  | fuel + 1, st, c :: rest =>
    match matchEqBrace (c :: rest) with
    | some r =>
      ("= \x7b\n" ++ tabs (st.ind + 1)).data ++
        stage2 fuel ⟨st.ind + 1, st.mode + 1⟩ r
    | none =>
      if c = '\x7b' then
        ("\x7b\n" ++ tabs (st.ind + 1)).data ++
          stage2 fuel ⟨st.ind + 1, if st.mode > 0 then st.mode + 1 else 0⟩ rest
      else if c = '\x7d' then
        ("\n" ++ tabs (st.ind - 1) ++ "\x7d").data ++
          stage2 fuel ⟨st.ind - 1, if st.mode > 0 then st.mode - 1 else 0⟩ rest
      else if c = ';' then
        (";\n" ++ tabs st.ind).data ++ stage2 fuel st rest
      else if c = ',' then
        (if st.mode > 0 then (",\n" ++ tabs st.ind).data else [',']) ++
          stage2 fuel st rest
      else
        match matchStringLit (c :: rest) with
        | some (lit, r) => lit ++ stage2 fuel st r
        | none => c :: stage2 fuel st rest

/-- Stage 3 (line 385): `\n(\t*)[ ]+` loses its spaces (the tabs stay via
`$1`), and otherwise `\n[\t ]+\n` collapses to a single newline, the
trailing newline being part of the match. -/
def stage3 : Nat → List Char → List Char
  | 0, cs => cs
  | _ + 1, [] => []
  | fuel + 1, c :: rest =>
    if c = '\n' then
      let tabsRun := rest.takeWhile (fun x => x = '\t')
      let afterTabs := rest.drop tabsRun.length
      let spaces := afterTabs.takeWhile (fun x => x = ' ')
      if 0 < spaces.length then
        ('\n' :: tabsRun) ++ stage3 fuel (afterTabs.drop spaces.length)
      else
        let ws := rest.takeWhile (fun x => x = '\t' || x = ' ')
        if 0 < ws.length then
          match rest.drop ws.length with
          | '\n' :: r2 => '\n' :: stage3 fuel r2
          | _ => c :: stage3 fuel rest
        else c :: stage3 fuel rest
    else c :: stage3 fuel rest

/-- `String.prototype.trimEnd` on the final text (line 385's trimRight). -/
def jsTrimEnd (s : String) : String :=
  String.mk ((s.data.reverse.dropWhile isJsSpace).reverse)

namespace Clib

/-- Embeds `Clib.format(code, initialIndent)`: the three passes with the
initial indent of `"\t".repeat(initialIndent || 0)`, then the right-trim. -/
def format (code : String) (initialIndent : Nat) : String :=
  let s1 := stage1 code.data.length code.data
  let s2 := stage2 s1.length ⟨initialIndent, 0⟩ s1
  let s3 := stage3 s2.length s2
  jsTrimEnd (String.mk s3)

end Clib


/-- Splits a character list into newline-separated lines. -/
def splitNlAux : List Char → List Char → List (List Char)
  | [], acc => [acc.reverse]
  | c :: rest, acc =>
    if c = '\n' then acc.reverse :: splitNlAux rest []
    else splitNlAux rest (c :: acc)

def linesOf (s : String) : List (List Char) := splitNlAux s.data []

/-- A blank line: empty or whitespace-only. -/
def isBlankLine (l : List Char) : Bool := l.all isJsSpace

def consecBlank : List (List Char) → Bool
  | l1 :: l2 :: rest =>
    (isBlankLine l1 && isBlankLine l2) || consecBlank (l2 :: rest)
  | _ => false

/-- Whether the text has two or more consecutive blank lines. -/
def hasTwoConsecBlank (s : String) : Bool := consecBlank (linesOf s)

/-- Whether some line of the text ends in a space or a tab. -/
def hasLineTrailingWs (s : String) : Bool :=
  (linesOf s).any fun l =>
    match l.getLast? with
    | some c => c = ' ' || c = '\t'
    | none => false

/-- Counterexample to C8 as stated: newlines inside a double-quoted
literal survive all three passes untouched, so
`format("\"a\n\n\nb\"")` contains two consecutive empty lines; and a space
before a closing brace ends up as trailing whitespace on an interior line,
as in `format("{x }") = "{\n\tx \n}"` - only the end of the whole text is
trimmed. -/
theorem c8_counterexample :
    Clib.format "\"a\n\n\nb\"" 0 = "\"a\n\n\nb\"" ∧
    hasTwoConsecBlank (Clib.format "\"a\n\n\nb\"" 0) = true ∧
    Clib.format "\x7bx \x7d" 0 = "\x7b\n\tx \n\x7d" ∧
    hasLineTrailingWs (Clib.format "\x7bx \x7d" 0) = true :=
  ⟨rfl, rfl, rfl, rfl⟩

theorem head_dropWhile_false (p : Char → Bool) (l : List Char) (c : Char)
    (h : (l.dropWhile p).head? = some c) : p c = false := by
  induction l with
  | nil => cases h
  | cons hd rest ih =>
    by_cases hp : p hd
    · rw [List.dropWhile_cons_of_pos hp] at h
      exact ih h
    · rw [List.dropWhile_cons_of_neg hp] at h
      simp only [List.head?_cons, Option.some.injEq] at h
      subst h
      exact bool_false_of_not_true (by simpa using hp)

/-- Whether the text's very last character is whitespace. -/
def endsInWs (s : String) : Bool :=
  match s.data.getLast? with
  | some c => isJsSpace c
  | none => false

/-- C8 (amended). The trim of line 385 acts on the final text only: the
output of `format` never ends in a whitespace character, for every input
and every initial indent. Interior lines may keep trailing whitespace and
consecutive blank lines can appear (for example out of string literals),
per the counterexample. -/
theorem c8_format_output_final_trim (code : String) (initialIndent : Nat) :
    endsInWs (Clib.format code initialIndent) = false := by
  have hgen : ∀ l : List Char, endsInWs (jsTrimEnd (String.mk l)) = false := by
    intro l
    simp only [endsInWs, jsTrimEnd, List.getLast?_reverse]
    rcases hh : ((String.mk l).data.reverse.dropWhile isJsSpace).head? with
      _ | c
    · rfl
    · exact head_dropWhile_false isJsSpace _ c hh
  exact hgen _

/-- C9. One scan step of stage 2: an opening brace preceded by `"= "`
raises the mode to `mode + 1`, positive whatever the prior state was; a
bare opening brace maps mode 0 to 0 and a positive mode to its successor;
and a comma emits `",\n"` plus the current indent exactly when the mode is
positive, a bare comma otherwise. -/
theorem c9_stage2_initializer_mode (fuel : Nat) (st : FmtState)
    (rest : List Char) :
    (stage2 (fuel + 1) st ('=' :: ' ' :: '\x7b' :: rest) =
      ("= \x7b\n" ++ tabs (st.ind + 1)).data ++
        stage2 fuel ⟨st.ind + 1, st.mode + 1⟩ rest) ∧
    0 < st.mode + 1 ∧
    (stage2 (fuel + 1) st ('\x7b' :: rest) =
      ("\x7b\n" ++ tabs (st.ind + 1)).data ++
        stage2 fuel ⟨st.ind + 1, if st.mode > 0 then st.mode + 1 else 0⟩
          rest) ∧
    (stage2 (fuel + 1) st (',' :: rest) =
      (if st.mode > 0 then (",\n" ++ tabs st.ind).data else [',']) ++
        stage2 fuel st rest) :=
  ⟨rfl, Nat.succ_pos st.mode, rfl, rfl⟩


/-! ### The per-file execution loop of `processFiles`

Lines 143-152 of ctemplate.ts build the `sandbox` object - whose `config`
property is the one merged configuration object - once, before the file
loop. Line 170 calls `vm.createContext(sandbox)` inside the loop, but
contextifying always targets that same shared object (and Node returns an
already-contextified object as-is), so every file's blocks run against the
same store: the `config` reference each block mutates is one shared dict.
The model keeps exactly that shared piece of state and abstracts a block
as a function from the configuration dict to an updated dict plus the text
it evaluates to. -/

/-- A template block as the loop sees it: reads and possibly mutates the
exposed configuration binding, and yields its replacement text. -/
def Block : Type := Entries → Entries × String

/-- One file's blocks run left to right against the shared binding. -/
def runFileBlocks : Entries → List Block → Entries × List String
  | cfg, [] => (cfg, [])
  | cfg, b :: rest =>
    let (cfg2, out) := b cfg
    let (cfg3, outs) := runFileBlocks cfg2 rest
    (cfg3, out :: outs)

/-- The file loop of lines 153-182: because the sandbox (and its `config`
reference) is created once before the loop, the configuration state
threads from each file into the next. -/
def processFilesModel : Entries → List (List Block) →
    Entries × List (List String)
  | cfg, [] => (cfg, [])
  | cfg, file :: files =>
    let (cfg2, outs) := runFileBlocks cfg file
    let (cfg3, rest) := processFilesModel cfg2 files
    (cfg3, outs :: rest)

/-- First template file, one block: `config.leak = 1`, evaluating to the
empty string. -/
def c1FileOne : List Block := [fun cfg => (setKey cfg "leak" (.int 1), "")]

/-- Second template file, one block: evaluate `config.leak`. -/
def c1FileTwo : List Block := [fun cfg =>
  (cfg, match findKey cfg "leak" with
        | some (.int 1) => "1"
        | some _ => "other"
        | none => "undefined")]

/-- C1 fails on the code: processing the two files in sequence from an
initially empty configuration, the second file's block observes the
mutation `leak = 1` made by the first file's block (its output is "1", not
"undefined"), because the sandbox and its configuration reference are
shared across the whole loop. The repository's own README promises the
opposite ("not in blocks of the next file"). -/
theorem c1_config_mutation_leaks_across_files :
    (processFilesModel [] [c1FileOne, c1FileTwo]).2 = [[""], ["1"]] := rfl

end CTemplate
